import Mathlib

/-!
Verification of the cocopf core: credit assignment and accrual (credit.py),
population stepping and replay (population.py), and the stepping adapter
over a callback-driven minimizer (minstep.py), shallowly embedded in Lean.

Floating-point values are modelled by an inductive type separating NaN,
the two infinities and finite values (finite arithmetic is exact, over the
rationals); numpy arrays are modelled by lists; the objective function and
its evaluation counter are explicit state.
-/

/-- Model of an IEEE double as stored in the population value arrays:
NaN, the infinities, or a finite value (modelled exactly as a rational). -/
inductive Val where
  | nan : Val
  | ninf : Val
  | inf : Val
  | fin : ℚ → Val
deriving DecidableEq

/-- Predicate np.isnan on a single value. -/
def Val.isNan : Val → Bool
  | .nan => true
  | _ => false

/-- Predicate np.isfinite on a single value. -/
def Val.isFinite : Val → Bool
  | .fin _ => true
  | _ => false

/-- IEEE comparison a < b: false whenever either side is NaN, with the
infinities at the two ends and exact comparison of finite values. -/
def Val.ieeeLt : Val → Val → Bool
  | .nan, _ => false
  | _, .nan => false
  | .ninf, .ninf => false
  | .ninf, _ => true
  | _, .ninf => false
  | .inf, _ => false
  | .fin _, .inf => true
  | .fin a, .fin b => decide (a < b)

/-- Comparison used by numpy when sorting doubles:
a precedes b iff a < b in IEEE order, or b is NaN and a is not
(so NaN values sort to the end). -/
def npySortLt (a b : Val) : Bool :=
  a.ieeeLt b || (b.isNan && !a.isNan)

/-- Sort key realizing npySortLt as the strict order of a linear order:
tier 1 for negative infinity, tier 2 for finite values (ordered by their
rational), tier 3 for positive infinity, tier 4 for NaN. -/
def Val.key : Val → Lex (ℕ × ℚ)
  | .ninf => toLex (1, 0)
  | .fin q => toLex (2, q)
  | .inf => toLex (3, 0)
  | .nan => toLex (4, 0)

/-- Comparator ordering indices by value (numpy sort order), ties broken by
the original index: the order a stable argsort realizes. -/
def argsortLe (vals : List Val) (i j : ℕ) : Bool :=
  npySortLt (vals.getD i .nan) (vals.getD j .nan) ||
    (!npySortLt (vals.getD j .nan) (vals.getD i .nan) && decide (i ≤ j))

/-- Sort key of an index under argsortLe: the value key, then the index. -/
def idxKey (vals : List Val) (i : ℕ) : Lex (Lex (ℕ × ℚ) × ℕ) :=
  toLex ((vals.getD i .nan).key, i)

/-- Reference stable argsort: the indices 0..K-1 sorted stably by the numpy
double comparator (ties keep the original index order).  It coincides with
numpy's argsort exactly when the array is short enough that numpy's default
quicksort runs its insertion-sort finish on the whole array (at most 16
elements; see argsort_eq_stable_of_small); above that threshold numpy's
partition exchange reorders equal elements and argsort differs. -/
def stableArgsort (vals : List Val) : List ℕ :=
  (List.range vals.length).mergeSort (argsortLe vals)

/-- Swap of two entries of the index array (INTP_SWAP on tosort). -/
def idxSwap (t : List ℕ) (i j : ℕ) : List ℕ :=
  (t.set i (t.getD j 0)).set j (t.getD i 0)

/-- Value the sort compares at position p of the index array: v[t[p]]. -/
def tv (v : List Val) (t : List ℕ) (p : ℕ) : Val :=
  v.getD (t.getD p 0) .nan

/-- Shift loop of numpy's insertion sort on the index array
(while pj > pl and vp < v[*pk]: *pj-- = *pk--; then *pj = vi), structural
on the cursor pj. -/
def npyInsertShift (v : List Val) (pl : ℕ) (vi : ℕ) : List ℕ → ℕ → List ℕ
  | t, 0 => t.set 0 vi
  | t, pj + 1 =>
    if pl < pj + 1 ∧ npySortLt (v.getD vi .nan) (tv v t pj) = true then
      npyInsertShift v pl vi (t.set (pj + 1) (t.getD pj 0)) pj
    else
      t.set (pj + 1) vi

/-- Insertion sort of the index array segment [pl, pr]
(for pi = pl+1 .. pr: vi = *pi, shift, place). -/
def npyInsertionSegment (v : List Val) (t : List ℕ) (pl pr : ℕ) : List ℕ :=
  (List.range' (pl + 1) (pr - pl)).foldl
    (fun t2 pi => npyInsertShift v pl (t2.getD pi 0) t2 pi) t

/-- Upward scan of the partition exchange (do ++pi while v[*pi] < vp);
returns the stopped pi.  The fuel covers the segment (the median-of-3
pivot placement bounds the scan in real runs). -/
def npyScanUp (v : List Val) (vp : Val) (t : List ℕ) : ℕ → ℕ → ℕ
  | 0, pi => pi + 1
  | fuel + 1, pi =>
    if npySortLt (tv v t (pi + 1)) vp = true then npyScanUp v vp t fuel (pi + 1)
    else pi + 1

/-- Downward scan of the partition exchange (do --pj while vp < v[*pj]). -/
def npyScanDown (v : List Val) (vp : Val) (t : List ℕ) : ℕ → ℕ → ℕ
  | 0, pj => pj - 1
  | fuel + 1, pj =>
    if npySortLt vp (tv v t (pj - 1)) = true then npyScanDown v vp t fuel (pj - 1)
    else pj - 1

/-- Hoare partition exchange loop of aquicksort (scan up, scan down, swap
until the pointers cross); returns the array and the crossing pi. -/
def npyPartitionLoop (v : List Val) (vp : Val) : ℕ → List ℕ → ℕ → ℕ → List ℕ × ℕ
  | 0, t, pi, _ => (t, pi)
  | fuel + 1, t, pi, pj =>
    let pi2 := npyScanUp v vp t t.length pi
    let pj2 := npyScanDown v vp t t.length pj
    if pj2 ≤ pi2 then (t, pi2)
    else npyPartitionLoop v vp fuel (idxSwap t pi2 pj2) pi2 pj2

/-- One iteration of aquicksort's outer loop on the segment [pl, pr]: when
the segment holds more than 16 elements (pr - pl > 15, numpy's
SMALL_QUICKSORT), run one median-of-3 Hoare partition, push the larger
side and continue on the smaller; otherwise insertion-sort the segment and
pop the next segment off the stack (done when the stack is empty). -/
def npyAquicksortStep (v : List Val)
    (recur : List ℕ → ℕ → ℕ → List (ℕ × ℕ) → List ℕ)
    (t : List ℕ) (pl pr : ℕ) (stack : List (ℕ × ℕ)) : List ℕ :=
  if 15 < pr - pl then
    let pm := pl + (pr - pl) / 2
    let t1 := if npySortLt (tv v t pm) (tv v t pl) = true then idxSwap t pm pl else t
    let t2 := if npySortLt (tv v t1 pr) (tv v t1 pm) = true then idxSwap t1 pr pm else t1
    let t3 := if npySortLt (tv v t2 pm) (tv v t2 pl) = true then idxSwap t2 pm pl else t2
    let vp := tv v t3 pm
    let t4 := idxSwap t3 pm (pr - 1)
    let r := npyPartitionLoop v vp (pr - pl + 2) t4 pl (pr - 1)
    let t5 := idxSwap r.1 r.2 (pr - 1)
    if r.2 - pl < pr - r.2 then
      recur t5 pl (r.2 - 1) ((r.2 + 1, pr) :: stack)
    else
      recur t5 (r.2 + 1) pr ((pl, r.2 - 1) :: stack)
  else
    let t6 := npyInsertionSegment v t pl pr
    match stack with
    | [] => t6
    | (pl2, pr2) :: rest => recur t6 pl2 pr2 rest

/-- Outer loop of aquicksort; the fuel bounds the number of partitions and
segment pops (at most one partition or one pop per unit, so 2n + 2 always
suffices for an n-element array). -/
def npyAquicksortLoop (v : List Val) :
    ℕ → List ℕ → ℕ → ℕ → List (ℕ × ℕ) → List ℕ
  | 0, t, _, _, _ => t
  | fuel + 1, t, pl, pr, stack =>
    npyAquicksortStep v (npyAquicksortLoop v fuel) t pl pr stack

/-- Embedding of np.argsort(pop.values) with numpy's default sort for
doubles, aquicksort as shipped before numpy 1.17 (no introsort depth
limit): the identity index array 0..K-1 sorted in place by median-of-3
Hoare quicksort down to 16-element segments, which are finished by
insertion sort.  The comparator is the numpy double LT.  The partition
exchange swaps equal elements, so the sort is unstable for arrays longer
than 16 elements. -/
def argsort (vals : List Val) : List ℕ :=
  npyAquicksortLoop vals (2 * vals.length + 2) (List.range vals.length) 0
    (vals.length - 1) []

/-- Proof-side functional form of the insertion shift: insert vi into the
reversed sorted prefix, walking past elements strictly greater than vi. -/
def insertRev (v : List Val) (vi : ℕ) : List ℕ → List ℕ
  | [] => [vi]
  | a :: p =>
    if npySortLt (v.getD vi .nan) (v.getD a .nan) = true then a :: insertRev v vi p
    else vi :: a :: p

/-- Population state as the credit engine sees it: the value array
(pop.values) and the per-member iteration counters (pop.iters).  The
population size pop.K is maintained equal to the length of the value
array throughout population.py. -/
structure Pop where
  values : List Val
  iters : List ℕ

/-- Population size, equal to the length of the value array. -/
def Pop.K (p : Pop) : ℕ := p.values.length

/-- Embedding of CreditAssignRaw.__call__: return pop.values.copy(). -/
def CreditAssignRaw (pop : Pop) : List Val := pop.values

/-- Embedding of CreditAssignRanked.__call__:
idx = np.argsort(pop.values); credit = np.zeros(pop.K);
for i in range(pop.K): credit[idx[i]] = i / (pop.K - 1.0). -/
def CreditAssignRanked (pop : Pop) : List Val :=
  (List.range pop.K).foldl
    (fun credit i =>
      credit.set ((argsort pop.values).getD i 0) (Val.fin ((i : ℚ) / ((pop.K : ℚ) - 1))))
    (List.replicate pop.K (Val.fin 0))

/-- Embedding of CreditAccrualLatest.__call__: return credit_new. -/
def CreditAccrualLatest (credit_old : Val) (iters : ℕ) (credit_new : Val) : Val :=
  credit_new

/-- Embedding of CreditAccrualAverage.__call__ on finite credits:
credit_old + (credit_new - credit_old) / iters. -/
def CreditAccrualAverage (credit_old : ℚ) (iters : ℕ) (credit_new : ℚ) : ℚ :=
  credit_old + (credit_new - credit_old) / (iters : ℚ)

/-- Embedding of CreditAccrualAdapt.__call__ on finite credits:
credit_old + (credit_new - credit_old) * alpha. -/
def CreditAccrualAdapt (alpha : ℚ) (credit_old : ℚ) (iters : ℕ) (credit_new : ℚ) : ℚ :=
  credit_old + (credit_new - credit_old) * alpha

/-- Sentinel written over NaN population values in PopulationCredit.update:
the literal 10e8 of the source. -/
def nanSentinel : ℚ := 10 * 10 ^ 8

/-- Record of one invocation of the accrual operator during update
(ghost instrumentation: member index and the three arguments passed). -/
structure AccrualCall where
  idx : ℕ
  credit_old : Val
  histLen : ℕ
  credit_new : Val
deriving DecidableEq

/-- State threaded through the update loop of PopulationCredit.update:
the credit array, the cached per-member iteration counters, and the ghost
log of accrual invocations. -/
structure UpdState where
  credit : List Val
  citers : List ℕ
  calls : List AccrualCall
deriving DecidableEq

/-- Loop body of PopulationCredit.update for member i:
skip the member when pop.iters[i] == self.iters[i]; otherwise reset the
cached counter to 0 on detected restart (counter decreased) when
reset_on_restart is set, then either blend through the accrual operator
(counter positive) or take the fresh assignment directly, and finally
increment the cached counter. -/
def updateStep (reset_on_restart : Bool) (accrual : Val → ℕ → Val → Val)
    (popIters : List ℕ) (new_credit : List Val) (st : UpdState) (i : ℕ) : UpdState :=
  if popIters.getD i 0 = st.citers.getD i 0 then st
  else
    let ci := if popIters.getD i 0 < st.citers.getD i 0 ∧ reset_on_restart = true
      then 0 else st.citers.getD i 0
    if 0 < ci then
      { credit := st.credit.set i (accrual (st.credit.getD i .nan) ci (new_credit.getD i .nan)),
        citers := st.citers.set i (ci + 1),
        calls := st.calls ++ [⟨i, st.credit.getD i .nan, ci, new_credit.getD i .nan⟩] }
    else
      { credit := st.credit.set i (new_credit.getD i .nan),
        citers := st.citers.set i (ci + 1),
        calls := st.calls }

/-- Result of PopulationCredit.update: the population (mutated in place by
the NaN sanitization), the new credit array and cached counters, and the
ghost log of accrual invocations. -/
structure UpdResult where
  pop : Pop
  credit : List Val
  citers : List ℕ
  calls : List AccrualCall

/-- Embedding of PopulationCredit.update:
pop.values[np.isnan(pop.values)] = 10e8;
new_credit = assign_method(pop);
then the per-member loop over range(pop.K). -/
def PopulationCredit.update (assign : Pop → List Val) (accrual : Val → ℕ → Val → Val)
    (reset_on_restart : Bool) (pop : Pop) (credit : List Val) (citers : List ℕ) :
    UpdResult :=
  let pop2 : Pop :=
    { pop with values := pop.values.map (fun v => if v.isNan then Val.fin nanSentinel else v) }
  let new_credit := assign pop2
  let st := (List.range pop2.K).foldl
    (updateStep reset_on_restart accrual pop2.iters new_credit) ⟨credit, citers, []⟩
  ⟨pop2, st.credit, st.citers, st.calls⟩

/-- Per-member outcome of one updateStep, as a function of the entries the
loop reads for that member: new credit entry, new cached counter, and the
accrual invocations made (proof-side characterization of the loop body). -/
def memberUpdateSpec (reset_on_restart : Bool) (accrual : Val → ℕ → Val → Val)
    (i pi c0 : ℕ) (cr nc : Val) : Val × ℕ × List AccrualCall :=
  if pi = c0 then (cr, c0, [])
  else
    let ci := if pi < c0 ∧ reset_on_restart = true then 0 else c0
    if 0 < ci then (accrual cr ci nc, ci + 1, [⟨i, cr, ci, nc⟩])
    else (nc, ci + 1, [])

/-- Prefix of the update loop: foldl of updateStep over range n. -/
def updLoop (reset_on_restart : Bool) (accrual : Val → ℕ → Val → Val)
    (popIters : List ℕ) (new_credit : List Val) (st : UpdState) (n : ℕ) : UpdState :=
  (List.range n).foldl (updateStep reset_on_restart accrual popIters new_credit) st

/-- Entries of memberUpdateSpec read off a loop-entry state for member j. -/
def specAt (reset_on_restart : Bool) (accrual : Val → ℕ → Val → Val)
    (popIters : List ℕ) (new_credit : List Val) (st0 : UpdState) (j : ℕ) :
    Val × ℕ × List AccrualCall :=
  memberUpdateSpec reset_on_restart accrual j (popIters.getD j 0) (st0.citers.getD j 0)
    (st0.credit.getD j .nan) (new_credit.getD j .nan)

/-- Population after the in-place NaN sanitization at the top of update. -/
def sanitizedPop (pop : Pop) : Pop :=
  { pop with values := pop.values.map (fun v => if v.isNan then Val.fin nanSentinel else v) }

/-- Embedding of Population.stop: for m in self.minimizers: m.stop().
Each minimizer's stop() is modelled by whether it raises an error; the
Python for-loop propagates an uncaught exception immediately.  Starting
from member index i, the result lists the indices on which stop() was
invoked, in order, together with the index whose exception aborted the
loop (none when the loop ran to completion). -/
def Population.stop (raises : List Bool) (i : ℕ) : List ℕ × Option ℕ :=
  match raises with
  | [] => ([], none)
  | r :: rest =>
    if r then ([i], some i)
    else
      let x := Population.stop rest (i + 1)
      (i :: x.1, x.2)

/-- Replay-backed member state: the recorded (nfevs delta, value) steps,
the cursor s, and the warn_end flag (fields of RecordedStepping). -/
structure RecordedStepping where
  s : ℕ
  steps : List (ℕ × Val)
  warn_end : Bool
deriving DecidableEq

/-- Embedding of RecordedStepping.replay_step: returns the recorded pair,
the successor state, and whether this call emitted the exhaustion warning;
none when the recorded list is empty (the source would raise an IndexError
on steps[-1]).  The cursor test is the Python comparison
self.s > len(self.steps) - 1, taken over the integers. -/
def RecordedStepping.replay_step (r : RecordedStepping) :
    Option ((ℕ × Val) × RecordedStepping × Bool) :=
  match r.steps with
  | [] => none
  | _ :: _ =>
    if (r.steps.length : ℤ) - 1 < (r.s : ℤ) then
      some (r.steps.getD (r.steps.length - 1) (0, .nan),
        ⟨r.steps.length - 1 + 1, r.steps, false⟩, r.warn_end)
    else
      some (r.steps.getD r.s (0, .nan), ⟨r.s + 1, r.steps, r.warn_end⟩, false)

/-- Result of the n-th successive replay_step call (0-based) starting from
state r, threading the successor state through. -/
def RecordedStepping.replayCall (r : RecordedStepping) :
    ℕ → Option ((ℕ × Val) × RecordedStepping × Bool)
  | 0 => r.replay_step
  | n + 1 =>
    match r.replay_step with
    | none => none
    | some (_, r2, _) => r2.replayCall n

/-- Member state used by Population._step_one_call: the current solution
point, value, local iteration counter, and the live minimizer handle,
modelled by the list of its remaining next() yields.  Each yield carries
the reported point and the number of objective evaluations the wrapped
optimizer spends inside that next() call; an exhausted list means the next
call raises StopIteration. -/
structure StepMember where
  point : ℤ
  value : ℤ
  iters : ℕ
  minimizer : List (ℤ × ℕ)
deriving DecidableEq

/-- Environment of a step_one call: the objective fi.evalfun (returns the
value at a point; every call adds one evaluation) and the stream of
restarts, giving for the r-th restart the drawn starting point and the
fresh minimizer handle made for it. -/
structure StepEnv where
  f : ℤ → ℤ
  restarts : ℕ → ℤ × List (ℤ × ℕ)

/-- State across a step_one call: the benchmark evaluation counter
fi.f.evaluations, the number of restarts drawn so far, the member being
stepped, and the total_steps counter. -/
structure StepState where
  evaluations : ℕ
  restartIdx : ℕ
  member : StepMember
  total_steps : ℕ
deriving DecidableEq

/-- Embedding of Population.restart_one for the stepped member: draw the
next random starting point, reset the value to 1e10, replace the handle
with a fresh one, and reset the local iteration counter to 0. -/
def restart_one (env : StepEnv) (s : StepState) : StepState :=
  { s with
    restartIdx := s.restartIdx + 1,
    member :=
      { point := (env.restarts s.restartIdx).1,
        value := 10 ^ 10,
        iters := 0,
        minimizer := (env.restarts s.restartIdx).2 } }

/-- Loop of Population._step_one_call: while fewer than 100 evaluations
beyond base_nfevs have been spent, step the minimizer by one iteration (its
internal evaluations plus the one evalfun call are added to the counter),
evaluate the objective at the reported point, and keep the best (x, y)
seen; on StopIteration restart the member and retry without spending
evaluations.  On loop exit store the best value in the member, advance the
counters and return it along with the ghost trace of the values observed
at the iteration points.  The fuel bounds the number of loop iterations;
none is returned if it runs out (or if the loop could exit with no best
value, which cannot happen when base_nfevs is the entry counter).
Modelling note: the returned bx is the argmin point of the observed values,
whereas in the source best_x aliases the numpy row self.points[i] and so
holds the member's latest point by return time; no theorem below constrains
bx, only the best value bv. -/
def stepOneBody (env : StepEnv) (base_nfevs : ℕ)
    (recur : StepState → Option (ℤ × ℤ) → List ℤ → Option (StepState × ℤ × ℤ × List ℤ))
    (s : StepState) (best : Option (ℤ × ℤ)) (trace : List ℤ) :
    Option (StepState × ℤ × ℤ × List ℤ) :=
  if s.evaluations < base_nfevs + 100 then
    match s.member.minimizer with
    | [] => recur (restart_one env s) best trace
    | (p, d) :: rest =>
      let s2 : StepState :=
        { s with
          evaluations := s.evaluations + d + 1,
          member := { s.member with point := p, minimizer := rest } }
      let y := env.f p
      let best2 := match best with
        | none => (p, y)
        | some (bx, bv) => if bv > y then (p, y) else (bx, bv)
      recur s2 (some best2) (trace ++ [y])
  else
    match best with
    | none => none
    | some (bx, bv) =>
      some ({ s with
        member := { s.member with value := bv, iters := s.member.iters + 1 },
        total_steps := s.total_steps + 1 }, bx, bv, trace)

def stepOneLoop (env : StepEnv) (base_nfevs : ℕ) :
    ℕ → StepState → Option (ℤ × ℤ) → List ℤ → Option (StepState × ℤ × ℤ × List ℤ)
  | 0, _, _, _ => none
  | fuel + 1, s, best, trace =>
    stepOneBody env base_nfevs (stepOneLoop env base_nfevs fuel) s best trace

/-- Embedding of Population._step_one_call: base_nfevs is the evaluation
counter at entry; the loop then spends at least 100 evaluations. -/
def step_one_call (env : StepEnv) (fuel : ℕ) (s : StepState) :
    Option (StepState × ℤ × ℤ × List ℤ) :=
  stepOneLoop env s.evaluations fuel s none []

/-- Accumulator step of the running best value, as the loop folds it. -/
def minAcc (acc : Option ℤ) (y : ℤ) : Option ℤ :=
  match acc with
  | none => some y
  | some bv => some (min bv y)

/-- Minimum of a list of observed values, folded like the running best. -/
def listMin (l : List ℤ) : Option ℤ :=
  l.foldl minAcc none

/-- Solution points handed through the stepping adapter: vectors of
coordinates.  On equal-dimension vectors, np.any(x != last_x) is exactly
inequality of the coordinate lists. -/
abbrev Point := List ℤ

/-- A wrapped optimizer run as the adapter sees it: the starting point x0,
the deterministic sequence of points on which the optimizer invokes its
per-iteration callback, and the final result point r.x (none when the
result object has no x attribute; getattr then falls back to x0). -/
structure ScriptedOpt where
  x0 : Point
  callbacks : List Point
  resultx : Option Point

/-- Value of last_x when the wrapped optimizer returns: x0, overwritten by
every one_iter callback. -/
def lastReported (o : ScriptedOpt) : Point :=
  o.callbacks.foldl (fun _ xk => xk) o.x0

/-- Points MinimizeThread.run pushes through the rendezvous queue after the
initial handshake, in order: one per intercepted callback, then the final
result point when np.any(x != last_x) holds, i.e. when it differs from the
last reported point; after these only the finished marker remains.  The
capacity-1 queue with task_done/join handshakes enforces strict alternation
of caller and thread, so the run is equivalent to this deterministic
message sequence consumed one message per next() call. -/
def MinimizeThread.reportedPoints (o : ScriptedOpt) : List Point :=
  o.callbacks ++ (if o.resultx.getD o.x0 ≠ lastReported o then [o.resultx.getD o.x0] else [])

/-- Stepping handle state: the messages not yet consumed by next(), and
the thread_alive flag. -/
structure MinimizeStepping where
  pending : List Point
  thread_alive : Bool
deriving DecidableEq

/-- MinimizeStepping.__init__: start the thread and consume the initial
handshake message; every reported point is still pending. -/
def MinimizeStepping.make (o : ScriptedOpt) : MinimizeStepping :=
  ⟨MinimizeThread.reportedPoints o, true⟩

/-- Embedding of MinimizeStepping.next: unblock the thread and take its
next message; a point message is returned, the finished message joins the
thread and raises StopIteration (none). -/
def MinimizeStepping.next (m : MinimizeStepping) : Option Point × MinimizeStepping :=
  match m.pending with
  | [] => (none, ⟨[], false⟩)
  | p :: rest => (some p, ⟨rest, m.thread_alive⟩)

/-- Result of the n-th successive next() call (0-based) on the handle. -/
def MinimizeStepping.callSeq (m : MinimizeStepping) : ℕ → Option Point
  | 0 => m.next.1
  | n + 1 => m.next.2.callSeq n

theorem npySortLt_eq_key_lt (a b : Val) :
    npySortLt a b = decide (a.key < b.key) := by
  cases a <;> cases b <;>
    simp [npySortLt, Val.ieeeLt, Val.isNan, Val.key, Prod.Lex.lt_iff]

theorem argsortLe_eq_key_le (vals : List Val) (i j : ℕ) :
    argsortLe vals i j = decide (idxKey vals i ≤ idxKey vals j) := by
  unfold argsortLe idxKey
  rw [npySortLt_eq_key_lt, npySortLt_eq_key_lt]
  generalize (vals.getD i Val.nan).key = a
  generalize (vals.getD j Val.nan).key = b
  rcases lt_trichotomy a b with h | h | h
  · simp [h, (Prod.Lex.le_iff (a, i) (b, j)).mpr (Or.inl h)]
  · subst h
    simp [lt_irrefl, Prod.Lex.le_iff]
  · have h2 : ¬ (a < b ∨ (a = b ∧ i ≤ j)) := by
      rintro (hc | ⟨hc, -⟩)
      · exact absurd hc (not_lt.mpr h.le)
      · exact absurd (hc ▸ h) (lt_irrefl _)
    simp only [Prod.Lex.le_iff]
    simp [not_lt.mpr h.le, h, h2]
    intro hc
    exact absurd (hc ▸ h) (lt_irrefl _)

theorem stableArgsort_perm (vals : List Val) :
    (stableArgsort vals).Perm (List.range vals.length) :=
  List.mergeSort_perm _ _

theorem stableArgsort_nodup (vals : List Val) : (stableArgsort vals).Nodup :=
  ((stableArgsort_perm vals).nodup_iff).mpr (List.nodup_range _)

theorem stableArgsort_length (vals : List Val) : (stableArgsort vals).length = vals.length := by
  simpa using (stableArgsort_perm vals).length_eq

theorem mem_stableArgsort (vals : List Val) {m : ℕ} (hm : m < vals.length) :
    m ∈ stableArgsort vals :=
  ((stableArgsort_perm vals).mem_iff).mpr (List.mem_range.mpr hm)

theorem stableArgsort_sorted (vals : List Val) :
    List.Pairwise (fun a b => argsortLe vals a b = true) (stableArgsort vals) := by
  apply List.sorted_mergeSort
  · intro a b c hab hbc
    rw [argsortLe_eq_key_le] at hab hbc ⊢
    exact decide_eq_true (le_trans (of_decide_eq_true hab) (of_decide_eq_true hbc))
  · intro a b
    rw [argsortLe_eq_key_le, argsortLe_eq_key_le]
    rcases le_total (idxKey vals a) (idxKey vals b) with h | h
    · simp [h]
    · simp [h]

theorem stableArgsort_getElem_indexOf (vals : List Val) {m : ℕ} (hm : m < vals.length) :
    (stableArgsort vals).indexOf m < (stableArgsort vals).length ∧
      (stableArgsort vals).get ⟨(stableArgsort vals).indexOf m,
        List.indexOf_lt_length.mpr (mem_stableArgsort vals hm)⟩ = m :=
  ⟨List.indexOf_lt_length.mpr (mem_stableArgsort vals hm), List.indexOf_get _⟩

theorem stableArgsort_indexOf_lt_of_key_lt (vals : List Val) {m n : ℕ}
    (hm : m < vals.length) (hn : n < vals.length)
    (hk : idxKey vals m < idxKey vals n) :
    (stableArgsort vals).indexOf m < (stableArgsort vals).indexOf n := by
  have hmem : (stableArgsort vals).indexOf m < (stableArgsort vals).length :=
    List.indexOf_lt_length.mpr (mem_stableArgsort vals hm)
  have hnem : (stableArgsort vals).indexOf n < (stableArgsort vals).length :=
    List.indexOf_lt_length.mpr (mem_stableArgsort vals hn)
  have hgm : (stableArgsort vals).get ⟨_, hmem⟩ = m := List.indexOf_get _
  have hgn : (stableArgsort vals).get ⟨_, hnem⟩ = n := List.indexOf_get _
  rcases lt_trichotomy ((stableArgsort vals).indexOf m) ((stableArgsort vals).indexOf n) with h | h | h
  · exact h
  · exfalso
    have : m = n := by
      rw [← hgm, ← hgn]
      congr 1
      exact Fin.ext h
    exact absurd (this ▸ hk) (lt_irrefl _)
  · exfalso
    have hle := (List.pairwise_iff_get.mp (stableArgsort_sorted vals)) ⟨_, hnem⟩ ⟨_, hmem⟩ h
    rw [hgm, hgn, argsortLe_eq_key_le] at hle
    exact absurd (lt_of_lt_of_le hk (of_decide_eq_true hle)) (lt_irrefl _)

theorem argsortLe_trans (vals : List Val) {a b c : ℕ} (hab : argsortLe vals a b = true)
    (hbc : argsortLe vals b c = true) : argsortLe vals a c = true := by
  rw [argsortLe_eq_key_le] at hab hbc ⊢
  exact decide_eq_true (le_trans (of_decide_eq_true hab) (of_decide_eq_true hbc))

theorem argsortLe_antisymm (vals : List Val) {a b : ℕ} (hab : argsortLe vals a b = true)
    (hba : argsortLe vals b a = true) : a = b := by
  rw [argsortLe_eq_key_le] at hab hba
  have he : idxKey vals a = idxKey vals b :=
    le_antisymm (of_decide_eq_true hab) (of_decide_eq_true hba)
  exact congrArg (fun x => (ofLex x).2) he

theorem ranked_fold_length (vals : List Val) (idx : List ℕ) (n : ℕ) :
    ((List.range n).foldl
      (fun credit i =>
        credit.set (idx.getD i 0) (Val.fin ((i : ℚ) / ((vals.length : ℚ) - 1))))
      (List.replicate vals.length (Val.fin 0))).length = vals.length := by
  induction n with
  | zero => simp
  | succ n ih =>
    rw [List.range_succ, List.foldl_append]
    simp only [List.foldl_cons, List.foldl_nil, List.length_set]
    exact ih

theorem ranked_fold_getElem? (vals : List Val) (idx : List ℕ) (hnd : idx.Nodup)
    (hlen : idx.length = vals.length) (n : ℕ) (hn : n ≤ vals.length)
    (m : ℕ) (hm : m < vals.length) (hmem : m ∈ idx) :
    ((List.range n).foldl
      (fun credit i =>
        credit.set (idx.getD i 0) (Val.fin ((i : ℚ) / ((vals.length : ℚ) - 1))))
      (List.replicate vals.length (Val.fin 0)))[m]? =
      some (if idx.indexOf m < n
        then Val.fin ((idx.indexOf m : ℚ) / ((vals.length : ℚ) - 1))
        else Val.fin 0) := by
  induction n with
  | zero => simp [List.getElem?_replicate, hm]
  | succ n ih =>
    have hn' : n ≤ vals.length := by omega
    have hnlt : n < idx.length := by omega
    have hgetD : idx.getD n 0 = idx[n] := by
      rw [List.getD_eq_getElem?_getD, List.getElem?_eq_getElem hnlt]
      rfl
    rw [List.range_succ, List.foldl_append]
    simp only [List.foldl_cons, List.foldl_nil]
    rw [List.getElem?_set, hgetD]
    by_cases he : idx[n] = m
    · have hidx : idx.indexOf m = n := by
        rw [← he]
        exact List.indexOf_getElem hnd n hnlt
      rw [if_pos he, if_pos (by rw [he, ranked_fold_length]; exact hm), hidx,
        if_pos (Nat.lt_succ_self n)]
    · have hidx : idx.indexOf m ≠ n := by
        intro hc
        apply he
        have hml : idx.indexOf m < idx.length :=
          List.indexOf_lt_length.mpr hmem
        have h1 : idx[idx.indexOf m]? = some m := by
          rw [List.getElem?_eq_getElem hml]
          exact congrArg some (List.getElem_indexOf hml)
        rw [hc, List.getElem?_eq_getElem hnlt] at h1
        exact Option.some.inj h1
      rw [if_neg he, ih hn']
      congr 1
      by_cases hlt : idx.indexOf m < n
      · rw [if_pos hlt, if_pos (by omega)]
      · rw [if_neg hlt, if_neg (by omega)]

theorem take_set_of_le {α : Type} (l : List α) (m n : ℕ) (a : α) (h : n ≤ m) :
    (l.set m a).take n = l.take n := by
  apply List.ext_getElem?
  intro i
  rw [List.getElem?_take, List.getElem?_take]
  by_cases hi : i < n
  · rw [if_pos hi, if_pos hi, List.getElem?_set, if_neg (by omega)]
  · rw [if_neg hi, if_neg hi]

theorem drop_set_succ {α : Type} (l : List α) (k : ℕ) (a : α) :
    (l.set k a).drop (k + 1) = l.drop (k + 1) := by
  apply List.ext_getElem?
  intro i
  rw [List.getElem?_drop, List.getElem?_drop, List.getElem?_set, if_neg (by omega)]

theorem npyInsertShift_spec (v : List Val) (vi : ℕ) :
    ∀ (pj : ℕ) (t : List ℕ), pj < t.length →
      npyInsertShift v 0 vi t pj
        = (insertRev v vi (t.take pj).reverse).reverse ++ t.drop (pj + 1) := by
  intro pj
  induction pj with
  | zero =>
    intro t ht
    show t.set 0 vi = [vi] ++ t.drop 1
    cases t with
    | nil => simp at ht
    | cons a t2 => rfl
  | succ pj ih =>
    intro t ht
    have htake : (t.take (pj + 1)).reverse = t.getD pj 0 :: (t.take pj).reverse := by
      rw [List.take_succ, List.getElem?_eq_getElem (by omega : pj < t.length)]
      rw [List.getD_eq_getElem?_getD, List.getElem?_eq_getElem (by omega : pj < t.length)]
      simp
    show (if 0 < pj + 1 ∧ npySortLt (v.getD vi .nan) (tv v t pj) = true then
        npyInsertShift v 0 vi (t.set (pj + 1) (t.getD pj 0)) pj
      else t.set (pj + 1) vi) = _
    have htv : tv v t pj = v.getD (t.getD pj 0) .nan := rfl
    by_cases hc : npySortLt (v.getD vi .nan) (v.getD (t.getD pj 0) .nan) = true
    · rw [if_pos ⟨Nat.succ_pos pj, by rw [htv]; exact hc⟩]
      have hlen2 : pj < (t.set (pj + 1) (t.getD pj 0)).length := by
        rw [List.length_set]
        omega
      rw [ih (t.set (pj + 1) (t.getD pj 0)) hlen2]
      have h1 : (t.set (pj + 1) (t.getD pj 0)).take pj = t.take pj :=
        take_set_of_le t (pj + 1) pj _ (by omega)
      have h2 : (t.set (pj + 1) (t.getD pj 0)).drop (pj + 1)
          = t.getD pj 0 :: t.drop (pj + 2) := by
        rw [List.drop_eq_getElem_cons (by rw [List.length_set]; omega)]
        congr 1
        · rw [List.getElem_set]
          rw [if_pos rfl]
        · exact drop_set_succ t (pj + 1) _
      rw [h1, h2, htake]
      rw [insertRev]
      rw [if_pos hc]
      simp
    · rw [if_neg (fun hand => hc (htv ▸ hand.2))]
      rw [List.set_eq_take_append_cons_drop, if_pos ht, htake]
      rw [insertRev]
      rw [if_neg hc]
      have htk : List.take (pj + 1) t = List.take pj t ++ [t.getD pj 0] := by
        rw [List.take_succ, List.getElem?_eq_getElem (show pj < t.length by omega),
          List.getD_eq_getElem?_getD, List.getElem?_eq_getElem (show pj < t.length by omega)]
        rfl
      rw [htk]
      simp

theorem insertRev_perm (v : List Val) (vi : ℕ) (q : List ℕ) :
    (insertRev v vi q).Perm (vi :: q) := by
  induction q with
  | nil => exact List.Perm.refl _
  | cons a q ih =>
    rw [insertRev]
    by_cases hc : npySortLt (v.getD vi .nan) (v.getD a .nan) = true
    · rw [if_pos hc]
      exact (ih.cons a).trans (List.Perm.swap vi a q)
    · rw [if_neg hc]

theorem insertRev_pairwise (vals : List Val) (vi : ℕ) (q : List ℕ)
    (hdom : ∀ a ∈ q, a < vi)
    (hs : List.Pairwise (fun a b => argsortLe vals b a = true) q) :
    List.Pairwise (fun a b => argsortLe vals b a = true) (insertRev vals vi q) := by
  induction q with
  | nil =>
    rw [insertRev]
    exact List.pairwise_singleton _ _
  | cons a q ih =>
    rw [insertRev]
    rcases List.pairwise_cons.mp hs with ⟨ha, hq⟩
    by_cases hc : npySortLt (vals.getD vi .nan) (vals.getD a .nan) = true
    · rw [if_pos hc]
      apply List.pairwise_cons.mpr
      refine ⟨?_, ih (fun b hb => hdom b (List.mem_cons_of_mem a hb)) hq⟩
      intro b hb
      have hb2 := (insertRev_perm vals vi q).mem_iff.mp hb
      rcases List.mem_cons.mp hb2 with rfl | hbq
      · rw [argsortLe_eq_key_le]
        apply decide_eq_true
        apply le_of_lt
        rw [npySortLt_eq_key_lt] at hc
        exact (Prod.Lex.lt_iff _ _).mpr (Or.inl (of_decide_eq_true hc))
      · exact ha b hbq
    · rw [if_neg hc]
      have ha2 : a < vi := hdom a (List.mem_cons_self a q)
      have hcf : npySortLt (vals.getD vi .nan) (vals.getD a .nan) = false :=
        Bool.eq_false_iff.mpr hc
      have havi : argsortLe vals a vi = true := by
        unfold argsortLe
        rw [hcf]
        simp [Nat.le_of_lt ha2]
      apply List.pairwise_cons.mpr
      refine ⟨?_, hs⟩
      intro b hb
      rcases List.mem_cons.mp hb with rfl | hbq
      · exact havi
      · exact argsortLe_trans vals (ha b hbq) havi

theorem npyInsertionFold_spec (v : List Val) (n : ℕ) :
    ∀ m, m + 1 ≤ n →
      ∃ p : List ℕ,
        (List.range' 1 m).foldl (fun t2 pi => npyInsertShift v 0 (t2.getD pi 0) t2 pi)
            (List.range n)
          = p ++ List.range' (m + 1) (n - (m + 1)) ∧
        p.length = m + 1 ∧
        p.Perm (List.range (m + 1)) ∧
        List.Pairwise (fun a b => argsortLe v a b = true) p := by
  intro m
  induction m with
  | zero =>
    intro h1
    refine ⟨[0], ?_, rfl, List.Perm.refl _, List.pairwise_singleton _ _⟩
    show List.range n = [0] ++ List.range' 1 (n - 1)
    obtain ⟨k, rfl⟩ : ∃ k, n = k + 1 := ⟨n - 1, by omega⟩
    rw [List.range_eq_range']
    rfl
  | succ m ih =>
    intro h2
    obtain ⟨p, hS, hlen, hperm, hpair⟩ := ih (by omega)
    have hr : List.range' 1 (m + 1) = List.range' 1 m ++ [1 + 1 * m] :=
      List.range'_concat 1 m
    rw [hr, List.foldl_append]
    simp only [List.foldl_cons, List.foldl_nil]
    rw [hS, show 1 + 1 * m = m + 1 from by omega]
    obtain ⟨k2, hk2⟩ : ∃ k2, n - (m + 1) = k2 + 1 := ⟨n - (m + 2), by omega⟩
    have hgd : (p ++ List.range' (m + 1) (n - (m + 1))).getD (m + 1) 0 = m + 1 := by
      rw [List.getD_eq_getElem?_getD, List.getElem?_append_right (by omega), hlen, hk2]
      simp
    have hlenS : (p ++ List.range' (m + 1) (n - (m + 1))).length = n := by
      rw [List.length_append, hlen, List.length_range']
      omega
    rw [hgd, npyInsertShift_spec v (m + 1) (m + 1) _ (by rw [hlenS]; omega)]
    have htk : (p ++ List.range' (m + 1) (n - (m + 1))).take (m + 1) = p :=
      List.take_left' hlen
    have hdr : (p ++ List.range' (m + 1) (n - (m + 1))).drop (m + 1 + 1)
        = List.range' (m + 2) (n - (m + 2)) := by
      have h3 : (p ++ List.range' (m + 1) (n - (m + 1))).drop (p.length + 1)
          = (List.range' (m + 1) (n - (m + 1))).drop 1 := List.drop_append 1
      rw [hlen] at h3
      rw [h3, hk2]
      show List.range' (m + 2) k2 = List.range' (m + 2) (n - (m + 2))
      rw [show k2 = n - (m + 2) from by omega]
    have hdom : ∀ a ∈ p.reverse, a < m + 1 := by
      intro a ha
      have := hperm.mem_iff.mp (List.mem_reverse.mp ha)
      exact List.mem_range.mp this
    have hpair2 : List.Pairwise (fun a b => argsortLe v b a = true) p.reverse :=
      List.pairwise_reverse.mpr hpair
    refine ⟨(insertRev v (m + 1) p.reverse).reverse, ?_, ?_, ?_, ?_⟩
    · rw [htk, hdr]
    · rw [List.length_reverse, (insertRev_perm v (m + 1) p.reverse).length_eq]
      simp [hlen]
    · refine (List.reverse_perm _).trans
        ((insertRev_perm v (m + 1) p.reverse).trans ?_)
      refine ((List.reverse_perm p).cons (m + 1)).trans ?_
      rw [List.range_succ]
      exact (hperm.cons (m + 1)).trans
        (List.perm_append_singleton (m + 1) (List.range (m + 1))).symm
    · rw [List.pairwise_reverse]
      exact insertRev_pairwise v (m + 1) p.reverse hdom hpair2

theorem npyInsertionSegment_range (v : List Val) (n : ℕ) (hn : 1 ≤ n) :
    (npyInsertionSegment v (List.range n) 0 (n - 1)).Perm (List.range n) ∧
    List.Pairwise (fun a b => argsortLe v a b = true)
      (npyInsertionSegment v (List.range n) 0 (n - 1)) := by
  obtain ⟨p, hS, hlen, hperm, hpair⟩ := npyInsertionFold_spec v n (n - 1) (by omega)
  have he : npyInsertionSegment v (List.range n) 0 (n - 1)
      = (List.range' 1 (n - 1)).foldl
          (fun t2 pi => npyInsertShift v 0 (t2.getD pi 0) t2 pi) (List.range n) := rfl
  have hsuf : List.range' (n - 1 + 1) (n - (n - 1 + 1)) = [] := by
    rw [show n - 1 + 1 = n from by omega, Nat.sub_self]
    rfl
  rw [show n - 1 + 1 = n from by omega] at hperm
  rw [he, hS, hsuf, List.append_nil]
  exact ⟨hperm, hpair⟩

theorem argsort_eq_stable_of_small (vals : List Val) (h : vals.length ≤ 16) :
    argsort vals = stableArgsort vals := by
  by_cases hn : vals.length = 0
  · have hv : vals = [] := List.length_eq_zero.mp hn
    subst hv
    have h2 : stableArgsort [] = [] := by
      unfold stableArgsort
      simp
    have h3 : argsort [] = [] := rfl
    rw [h2, h3]
  · have hn1 : 1 ≤ vals.length := by omega
    have h1 : argsort vals
        = npyInsertionSegment vals (List.range vals.length) 0 (vals.length - 1) := by
      unfold argsort
      show npyAquicksortStep vals (npyAquicksortLoop vals (2 * vals.length + 1))
        (List.range vals.length) 0 (vals.length - 1) [] = _
      unfold npyAquicksortStep
      rw [if_neg (by omega)]
    obtain ⟨hperm, hpair⟩ := npyInsertionSegment_range vals vals.length hn1
    haveI : IsAntisymm ℕ (fun a b => argsortLe vals a b = true) :=
      ⟨fun a b => argsortLe_antisymm vals⟩
    rw [h1]
    exact List.eq_of_perm_of_sorted (hperm.trans (stableArgsort_perm vals).symm)
      hpair (stableArgsort_sorted vals)

theorem creditAssignRanked_length (pop : Pop) :
    (CreditAssignRanked pop).length = pop.K :=
  ranked_fold_length pop.values (argsort pop.values) pop.K

theorem creditAssignRanked_getElem?_of (pop : Pop) (idx : List ℕ)
    (hidx : argsort pop.values = idx) (hnd : idx.Nodup)
    (hlen : idx.length = pop.values.length)
    (m : ℕ) (hm : m < pop.K) (hmem : m ∈ idx) :
    (CreditAssignRanked pop)[m]? =
      some (Val.fin ((idx.indexOf m : ℚ) / ((pop.K : ℚ) - 1))) := by
  have h := ranked_fold_getElem? pop.values idx hnd hlen pop.K le_rfl m hm hmem
  have hK : pop.K = pop.values.length := rfl
  have hlt : idx.indexOf m < pop.K := by
    have := List.indexOf_lt_length.mpr hmem
    omega
  rw [if_pos hlt] at h
  show (CreditAssignRanked pop)[m]? = _
  unfold CreditAssignRanked
  rw [hidx]
  exact h

theorem creditAssignRanked_getElem?_stable (pop : Pop)
    (he : argsort pop.values = stableArgsort pop.values) (m : ℕ) (hm : m < pop.K) :
    (CreditAssignRanked pop)[m]? =
      some (Val.fin (((stableArgsort pop.values).indexOf m : ℚ) / ((pop.K : ℚ) - 1))) :=
  creditAssignRanked_getElem?_of pop _ he (stableArgsort_nodup _) (stableArgsort_length _)
    m hm (mem_stableArgsort _ hm)

theorem creditAssignRanked_eq_map (pop : Pop)
    (he : argsort pop.values = stableArgsort pop.values) :
    CreditAssignRanked pop =
      (List.range pop.K).map
        (fun m => Val.fin (((stableArgsort pop.values).indexOf m : ℚ) / ((pop.K : ℚ) - 1))) := by
  apply List.ext_getElem?
  intro n
  by_cases hn : n < pop.K
  · rw [creditAssignRanked_getElem?_stable pop he n hn, List.getElem?_map,
      List.getElem?_range hn]
    rfl
  · rw [List.getElem?_eq_none (by rw [creditAssignRanked_length]; omega),
      List.getElem?_eq_none (by simp; omega)]

theorem map_indexOf_stableArgsort_perm (vals : List Val) :
    ((List.range vals.length).map (fun m => (stableArgsort vals).indexOf m)).Perm
      (List.range vals.length) := by
  have h2 : (stableArgsort vals).map (fun m => (stableArgsort vals).indexOf m) =
      List.range vals.length := by
    apply List.ext_getElem
    · rw [List.length_map, stableArgsort_length, List.length_range]
    · intro i h1 h2
      rw [List.getElem_map, List.getElem_range]
      exact List.indexOf_getElem (stableArgsort_nodup vals) i _
  calc ((List.range vals.length).map (fun m => (stableArgsort vals).indexOf m)).Perm
        ((stableArgsort vals).map (fun m => (stableArgsort vals).indexOf m)) :=
      ((stableArgsort_perm vals).symm).map _
    _ = List.range vals.length := h2

/-- C1 (amended): over a population of K members with 2 ≤ K ≤ 16 — within
numpy's insertion-sort regime for the default argsort — and arbitrary finite
values, the ranked credit assignment returns a permutation of
0/(K-1), 1/(K-1), ..., 1; member credit is ordered by value ascending; and
members with equal values receive ranks in stable order, the member with the
lower original index getting the smaller credit.  For K ≥ 17 the quicksort
partition exchange reorders ties and the stable-tie clause fails (see the
counterexample with 17 equal values). -/
theorem ranked_credit_stable_rank_permutation (pop : Pop) (hK : 2 ≤ pop.K)
    (hK16 : pop.K ≤ 16)
    (_hfin : ∀ v ∈ pop.values, v.isFinite = true) :
    (CreditAssignRanked pop).Perm
      ((List.range pop.K).map (fun (r : ℕ) => Val.fin ((r : ℚ) / ((pop.K : ℚ) - 1)))) ∧
    (∀ a b : ℕ, a < pop.K → b < pop.K →
      (Val.ieeeLt (pop.values.getD a .nan) (pop.values.getD b .nan) = true ∨
        (pop.values.getD a .nan = pop.values.getD b .nan ∧ a < b)) →
      Val.ieeeLt ((CreditAssignRanked pop).getD a .nan)
        ((CreditAssignRanked pop).getD b .nan) = true) := by
  have he : argsort pop.values = stableArgsort pop.values :=
    argsort_eq_stable_of_small pop.values hK16
  constructor
  · rw [creditAssignRanked_eq_map pop he]
    have hmm : (List.range pop.K).map
        (fun m => Val.fin (((stableArgsort pop.values).indexOf m : ℚ) / ((pop.K : ℚ) - 1))) =
      ((List.range pop.K).map (fun m => (stableArgsort pop.values).indexOf m)).map
        (fun (r : ℕ) => Val.fin ((r : ℚ) / ((pop.K : ℚ) - 1))) := by
      rw [List.map_map]
      rfl
    rw [hmm]
    exact (map_indexOf_stableArgsort_perm pop.values).map _
  · intro a b ha hb hyp
    have hkey : idxKey pop.values a < idxKey pop.values b := by
      rcases hyp with h | ⟨h, hab⟩
      · have hnp : npySortLt (pop.values.getD a .nan) (pop.values.getD b .nan) = true := by
          unfold npySortLt
          rw [h]
          rfl
        rw [npySortLt_eq_key_lt] at hnp
        exact (Prod.Lex.lt_iff _ _).mpr (Or.inl (of_decide_eq_true hnp))
      · exact (Prod.Lex.lt_iff _ _).mpr (Or.inr ⟨congrArg Val.key h, hab⟩)
    have hra := stableArgsort_indexOf_lt_of_key_lt pop.values ha hb hkey
    have hga : (CreditAssignRanked pop).getD a .nan =
        Val.fin (((stableArgsort pop.values).indexOf a : ℚ) / ((pop.K : ℚ) - 1)) := by
      rw [List.getD_eq_getElem?_getD, creditAssignRanked_getElem?_stable pop he a ha]
      rfl
    have hgb : (CreditAssignRanked pop).getD b .nan =
        Val.fin (((stableArgsort pop.values).indexOf b : ℚ) / ((pop.K : ℚ) - 1)) := by
      rw [List.getD_eq_getElem?_getD, creditAssignRanked_getElem?_stable pop he b hb]
      rfl
    rw [hga, hgb]
    simp only [Val.ieeeLt]
    apply decide_eq_true
    have hKpos : (0 : ℚ) < (pop.K : ℚ) - 1 := by
      have : (2 : ℚ) ≤ (pop.K : ℚ) := by exact_mod_cast hK
      linarith
    exact div_lt_div_of_pos_right (by exact_mod_cast hra) hKpos

/-- Witness for the C1 theorem: a concrete population of four finite values
with a tie between members 0 and 2. -/
theorem ranked_credit_stable_rank_permutation_witness :
    2 ≤ (Pop.mk [.fin 3, .fin 1, .fin 3, .fin 0] [0, 0, 0, 0]).K ∧
    (Pop.mk [.fin 3, .fin 1, .fin 3, .fin 0] [0, 0, 0, 0]).K ≤ 16 ∧
    ((CreditAssignRanked (Pop.mk [.fin 3, .fin 1, .fin 3, .fin 0] [0, 0, 0, 0])).Perm
      ((List.range (Pop.mk [.fin 3, .fin 1, .fin 3, .fin 0] [0, 0, 0, 0]).K).map
        (fun (r : ℕ) => Val.fin ((r : ℚ) /
          (((Pop.mk [.fin 3, .fin 1, .fin 3, .fin 0] [0, 0, 0, 0]).K : ℚ) - 1)))) ∧
    (∀ a b : ℕ, a < (Pop.mk [.fin 3, .fin 1, .fin 3, .fin 0] [0, 0, 0, 0]).K →
      b < (Pop.mk [.fin 3, .fin 1, .fin 3, .fin 0] [0, 0, 0, 0]).K →
      (Val.ieeeLt ((Pop.mk [.fin 3, .fin 1, .fin 3, .fin 0] [0, 0, 0, 0]).values.getD a .nan)
          ((Pop.mk [.fin 3, .fin 1, .fin 3, .fin 0] [0, 0, 0, 0]).values.getD b .nan) = true ∨
        ((Pop.mk [.fin 3, .fin 1, .fin 3, .fin 0] [0, 0, 0, 0]).values.getD a .nan =
            (Pop.mk [.fin 3, .fin 1, .fin 3, .fin 0] [0, 0, 0, 0]).values.getD b .nan ∧ a < b)) →
      Val.ieeeLt
        ((CreditAssignRanked (Pop.mk [.fin 3, .fin 1, .fin 3, .fin 0] [0, 0, 0, 0])).getD a .nan)
        ((CreditAssignRanked (Pop.mk [.fin 3, .fin 1, .fin 3, .fin 0] [0, 0, 0, 0])).getD b .nan)
          = true)) :=
  ⟨by decide, by decide,
    ranked_credit_stable_rank_permutation _ (by decide) (by decide) (by decide)⟩

/-- C1 counterexample: with 17 members of equal finite value, numpy's default
argsort quicksort (credit.py line 137) exceeds its 16-element insertion-sort
threshold and its partition exchange reorders the tied members, so the
computed permutation is not the identity; member 1 receives rank 14 and
member 2 receives rank 13, violating the claimed stable-tie ordering (the
member with the lower index should get the smaller credit). -/
theorem ranked_credit_tie_instability_counterexample :
    2 ≤ (Pop.mk (List.replicate 17 (Val.fin 0)) (List.replicate 17 0)).K ∧
    (∀ v ∈ (Pop.mk (List.replicate 17 (Val.fin 0)) (List.replicate 17 0)).values,
      v.isFinite = true) ∧
    (Pop.mk (List.replicate 17 (Val.fin 0)) (List.replicate 17 0)).values.getD 1 .nan
      = (Pop.mk (List.replicate 17 (Val.fin 0)) (List.replicate 17 0)).values.getD 2 .nan ∧
    Val.ieeeLt
      ((CreditAssignRanked (Pop.mk (List.replicate 17 (Val.fin 0))
        (List.replicate 17 0))).getD 1 .nan)
      ((CreditAssignRanked (Pop.mk (List.replicate 17 (Val.fin 0))
        (List.replicate 17 0))).getD 2 .nan) = false ∧
    Val.ieeeLt
      ((CreditAssignRanked (Pop.mk (List.replicate 17 (Val.fin 0))
        (List.replicate 17 0))).getD 2 .nan)
      ((CreditAssignRanked (Pop.mk (List.replicate 17 (Val.fin 0))
        (List.replicate 17 0))).getD 1 .nan) = true := by
  have hidx : argsort (Pop.mk (List.replicate 17 (Val.fin 0))
      (List.replicate 17 0)).values
      = [0, 14, 13, 12, 11, 10, 9, 15, 8, 6, 5, 4, 3, 2, 1, 7, 16] := by decide
  have h1 := creditAssignRanked_getElem?_of
    (Pop.mk (List.replicate 17 (Val.fin 0)) (List.replicate 17 0)) _ hidx
    (by decide) (by decide) 1 (by decide) (by decide)
  have h2 := creditAssignRanked_getElem?_of
    (Pop.mk (List.replicate 17 (Val.fin 0)) (List.replicate 17 0)) _ hidx
    (by decide) (by decide) 2 (by decide) (by decide)
  rw [show List.indexOf 1 [0, 14, 13, 12, 11, 10, 9, 15, 8, 6, 5, 4, 3, 2, 1, 7, 16] = 14
    from by decide] at h1
  rw [show List.indexOf 2 [0, 14, 13, 12, 11, 10, 9, 15, 8, 6, 5, 4, 3, 2, 1, 7, 16] = 13
    from by decide] at h2
  have hK : ((Pop.mk (List.replicate 17 (Val.fin 0)) (List.replicate 17 0)).K : ℚ) = 17 := by
    show ((List.replicate 17 (Val.fin 0)).length : ℚ) = 17
    rw [List.length_replicate]
    norm_num
  refine ⟨by decide, by decide, rfl, ?_, ?_⟩
  · rw [List.getD_eq_getElem?_getD, List.getD_eq_getElem?_getD, h1, h2]
    simp only [Option.getD_some, Val.ieeeLt]
    rw [decide_eq_false_iff_not, hK]
    norm_num
  · rw [List.getD_eq_getElem?_getD, List.getD_eq_getElem?_getD, h1, h2]
    simp only [Option.getD_some, Val.ieeeLt]
    rw [decide_eq_true_eq, hK]
    norm_num

theorem getD_set_ne {α : Type} (l : List α) (j i : ℕ) (a d : α) (h : j ≠ i) :
    (l.set j a).getD i d = l.getD i d := by
  rw [List.getD_eq_getElem?_getD, List.getD_eq_getElem?_getD, List.getElem?_set, if_neg h]

theorem getD_set_eq {α : Type} (l : List α) (i : ℕ) (a d : α) (h : i < l.length) :
    (l.set i a).getD i d = a := by
  rw [List.getD_eq_getElem?_getD, List.getElem?_set, if_pos rfl, if_pos h]
  rfl

theorem set_getD_self {α : Type} (l : List α) (i : ℕ) (d : α) (h : i < l.length) :
    l.set i (l.getD i d) = l := by
  apply List.ext_getElem?
  intro n
  rw [List.getElem?_set]
  by_cases hin : i = n
  · subst hin
    rw [if_pos rfl, if_pos h, List.getD_eq_getElem?_getD, List.getElem?_eq_getElem h]
    rfl
  · rw [if_neg hin]

theorem updateStep_eq (reset_on_restart : Bool) (accrual : Val → ℕ → Val → Val)
    (popIters : List ℕ) (new_credit : List Val) (st : UpdState) (i : ℕ)
    (hc : i < st.credit.length) (hi : i < st.citers.length) :
    updateStep reset_on_restart accrual popIters new_credit st i =
      ⟨st.credit.set i (specAt reset_on_restart accrual popIters new_credit st i).1,
       st.citers.set i (specAt reset_on_restart accrual popIters new_credit st i).2.1,
       st.calls ++ (specAt reset_on_restart accrual popIters new_credit st i).2.2⟩ := by
  unfold updateStep specAt memberUpdateSpec
  by_cases h1 : popIters.getD i 0 = st.citers.getD i 0
  · simp only [if_pos h1]
    obtain ⟨cr, ci, cl⟩ := st
    simp only [UpdState.mk.injEq]
    exact ⟨(set_getD_self _ _ _ hc).symm, (set_getD_self _ _ _ hi).symm, by simp⟩
  · simp only [if_neg h1]
    by_cases h3 : 0 < (if popIters.getD i 0 < st.citers.getD i 0 ∧ reset_on_restart = true
        then 0 else st.citers.getD i 0)
    · simp only [if_pos h3]
    · simp only [if_neg h3, List.append_nil]

theorem updLoop_spec (reset_on_restart : Bool) (accrual : Val → ℕ → Val → Val)
    (popIters : List ℕ) (new_credit : List Val) (st0 : UpdState) (n : ℕ)
    (hc : n ≤ st0.credit.length) (hi : n ≤ st0.citers.length) :
    (updLoop reset_on_restart accrual popIters new_credit st0 n).credit.length
        = st0.credit.length ∧
    (updLoop reset_on_restart accrual popIters new_credit st0 n).citers.length
        = st0.citers.length ∧
    (∀ j, n ≤ j →
      (updLoop reset_on_restart accrual popIters new_credit st0 n).credit.getD j .nan
          = st0.credit.getD j .nan ∧
      (updLoop reset_on_restart accrual popIters new_credit st0 n).citers.getD j 0
          = st0.citers.getD j 0) ∧
    (∀ j, j < n →
      (updLoop reset_on_restart accrual popIters new_credit st0 n).credit.getD j .nan
          = (specAt reset_on_restart accrual popIters new_credit st0 j).1 ∧
      (updLoop reset_on_restart accrual popIters new_credit st0 n).citers.getD j 0
          = (specAt reset_on_restart accrual popIters new_credit st0 j).2.1) ∧
    (updLoop reset_on_restart accrual popIters new_credit st0 n).calls
      = st0.calls ++ ((List.range n).map
          (fun j => (specAt reset_on_restart accrual popIters new_credit st0 j).2.2)).flatten := by
  induction n with
  | zero =>
    refine ⟨rfl, rfl, fun j _ => ⟨rfl, rfl⟩, fun j hj => absurd hj (Nat.not_lt_zero j), ?_⟩
    simp [updLoop]
  | succ n ih =>
    obtain ⟨ihcl, ihil, ihout, ihin, ihcalls⟩ := ih (by omega) (by omega)
    have hstep : updLoop reset_on_restart accrual popIters new_credit st0 (n + 1)
        = updateStep reset_on_restart accrual popIters new_credit
            (updLoop reset_on_restart accrual popIters new_credit st0 n) n := by
      unfold updLoop
      rw [List.range_succ, List.foldl_append]
      rfl
    have hnc : n < (updLoop reset_on_restart accrual popIters new_credit st0 n).credit.length := by
      omega
    have hni : n < (updLoop reset_on_restart accrual popIters new_credit st0 n).citers.length := by
      omega
    have hkey := updateStep_eq reset_on_restart accrual popIters new_credit
      (updLoop reset_on_restart accrual popIters new_credit st0 n) n hnc hni
    have hout := ihout n (le_refl n)
    have hspec : specAt reset_on_restart accrual popIters new_credit
        (updLoop reset_on_restart accrual popIters new_credit st0 n) n
        = specAt reset_on_restart accrual popIters new_credit st0 n := by
      unfold specAt
      rw [hout.1, hout.2]
    rw [hstep, hkey, hspec]
    refine ⟨?_, ?_, ?_, ?_, ?_⟩
    · simpa using ihcl
    · simpa using ihil
    · intro j hj
      constructor
      · dsimp only
        rw [getD_set_ne _ _ _ _ _ (by omega)]
        exact (ihout j (by omega)).1
      · dsimp only
        rw [getD_set_ne _ _ _ _ _ (by omega)]
        exact (ihout j (by omega)).2
    · intro j hj
      by_cases hjn : j = n
      · subst hjn
        constructor
        · dsimp only
          rw [getD_set_eq _ _ _ _ hnc]
        · dsimp only
          rw [getD_set_eq _ _ _ _ hni]
      · constructor
        · dsimp only
          rw [getD_set_ne _ _ _ _ _ (by omega)]
          exact (ihin j (by omega)).1
        · dsimp only
          rw [getD_set_ne _ _ _ _ _ (by omega)]
          exact (ihin j (by omega)).2
    · dsimp only
      rw [ihcalls, List.range_succ, List.map_append, List.flatten_append]
      simp

theorem sanitizedPop_K (pop : Pop) : (sanitizedPop pop).K = pop.K := by
  simp [sanitizedPop, Pop.K]

theorem update_def (assign : Pop → List Val) (accrual : Val → ℕ → Val → Val)
    (reset_on_restart : Bool) (pop : Pop) (credit : List Val) (citers : List ℕ) :
    PopulationCredit.update assign accrual reset_on_restart pop credit citers =
      ⟨sanitizedPop pop,
       (updLoop reset_on_restart accrual pop.iters (assign (sanitizedPop pop))
         ⟨credit, citers, []⟩ (sanitizedPop pop).K).credit,
       (updLoop reset_on_restart accrual pop.iters (assign (sanitizedPop pop))
         ⟨credit, citers, []⟩ (sanitizedPop pop).K).citers,
       (updLoop reset_on_restart accrual pop.iters (assign (sanitizedPop pop))
         ⟨credit, citers, []⟩ (sanitizedPop pop).K).calls⟩ :=
  rfl

theorem update_member_spec (assign : Pop → List Val) (accrual : Val → ℕ → Val → Val)
    (reset_on_restart : Bool) (pop : Pop) (credit : List Val) (citers : List ℕ)
    (hcl : pop.K ≤ credit.length) (hil : pop.K ≤ citers.length) (j : ℕ) (hj : j < pop.K) :
    (PopulationCredit.update assign accrual reset_on_restart pop credit citers).credit.getD j .nan
        = (memberUpdateSpec reset_on_restart accrual j (pop.iters.getD j 0) (citers.getD j 0)
            (credit.getD j .nan) ((assign (sanitizedPop pop)).getD j .nan)).1 ∧
      (PopulationCredit.update assign accrual reset_on_restart pop credit citers).citers.getD j 0
        = (memberUpdateSpec reset_on_restart accrual j (pop.iters.getD j 0) (citers.getD j 0)
            (credit.getD j .nan) ((assign (sanitizedPop pop)).getD j .nan)).2.1 := by
  rw [update_def]
  have hs := updLoop_spec reset_on_restart accrual pop.iters (assign (sanitizedPop pop))
    ⟨credit, citers, []⟩ (sanitizedPop pop).K
    (by rw [sanitizedPop_K]; exact hcl) (by rw [sanitizedPop_K]; exact hil)
  obtain ⟨-, -, -, hin, -⟩ := hs
  have hj2 : j < (sanitizedPop pop).K := by rw [sanitizedPop_K]; exact hj
  exact hin j hj2

theorem update_calls_spec (assign : Pop → List Val) (accrual : Val → ℕ → Val → Val)
    (reset_on_restart : Bool) (pop : Pop) (credit : List Val) (citers : List ℕ)
    (hcl : pop.K ≤ credit.length) (hil : pop.K ≤ citers.length) :
    (PopulationCredit.update assign accrual reset_on_restart pop credit citers).calls
      = ((List.range pop.K).map
          (fun j => (memberUpdateSpec reset_on_restart accrual j (pop.iters.getD j 0)
            (citers.getD j 0) (credit.getD j .nan)
            ((assign (sanitizedPop pop)).getD j .nan)).2.2)).flatten := by
  rw [update_def]
  have hs := updLoop_spec reset_on_restart accrual pop.iters (assign (sanitizedPop pop))
    ⟨credit, citers, []⟩ (sanitizedPop pop).K
    (by rw [sanitizedPop_K]; exact hcl) (by rw [sanitizedPop_K]; exact hil)
  obtain ⟨-, -, -, -, hcalls⟩ := hs
  rw [hcalls, sanitizedPop_K]
  rfl

theorem memberUpdateSpec_calls_mem (reset_on_restart : Bool) (accrual : Val → ℕ → Val → Val)
    (j pi c0 : ℕ) (cr nc : Val) :
    ∀ c ∈ (memberUpdateSpec reset_on_restart accrual j pi c0 cr nc).2.2,
      c.idx = j ∧ 1 ≤ c.histLen := by
  intro c hc
  unfold memberUpdateSpec at hc
  by_cases h1 : pi = c0
  · rw [if_pos h1] at hc
    simp at hc
  · rw [if_neg h1] at hc
    dsimp only at hc
    by_cases h3 : 0 < (if pi < c0 ∧ reset_on_restart = true then 0 else c0)
    · rw [if_pos h3] at hc
      simp only [List.mem_singleton] at hc
      subst hc
      exact ⟨rfl, h3⟩
    · rw [if_neg h3] at hc
      simp at hc

theorem memberUpdateSpec_bootstrap (reset_on_restart : Bool) (accrual : Val → ℕ → Val → Val)
    (j pi c0 : ℕ) (cr nc : Val) (h1 : pi ≠ c0)
    (h0 : (if pi < c0 ∧ reset_on_restart = true then 0 else c0) = 0) :
    memberUpdateSpec reset_on_restart accrual j pi c0 cr nc = (nc, 1, []) := by
  unfold memberUpdateSpec
  rw [if_neg h1]
  dsimp only
  rw [h0]
  simp

theorem memberUpdateSpec_citers_incremented (reset_on_restart : Bool)
    (accrual : Val → ℕ → Val → Val) (j pi c0 : ℕ) (cr nc : Val) (h1 : pi ≠ c0) :
    (memberUpdateSpec reset_on_restart accrual j pi c0 cr nc).2.1
      = (if pi < c0 ∧ reset_on_restart = true then 0 else c0) + 1 := by
  unfold memberUpdateSpec
  rw [if_neg h1]
  dsimp only
  split <;> split <;> rfl

/-- C7: an update call leaves a member whose local iteration counter did not
change since the previous update completely untouched: its credit value and
its history length (accrual denominator) are exactly as they were. -/
theorem update_skips_unstepped_member (assign : Pop → List Val)
    (accrual : Val → ℕ → Val → Val) (reset_on_restart : Bool) (pop : Pop)
    (credit : List Val) (citers : List ℕ)
    (hcl : pop.K ≤ credit.length) (hil : pop.K ≤ citers.length) (j : ℕ) (hj : j < pop.K)
    (hsame : pop.iters.getD j 0 = citers.getD j 0) :
    (PopulationCredit.update assign accrual reset_on_restart pop credit citers).credit.getD
        j .nan = credit.getD j .nan ∧
      (PopulationCredit.update assign accrual reset_on_restart pop credit citers).citers.getD
        j 0 = citers.getD j 0 := by
  have h := update_member_spec assign accrual reset_on_restart pop credit citers hcl hil j hj
  unfold memberUpdateSpec at h
  rw [if_pos hsame] at h
  exact h

/-- Witness for the C7 theorem on a concrete population: member 0 did not
step (counter 3 on both sides), so its credit and history length survive. -/
theorem update_skips_unstepped_member_witness :
    (Pop.mk [.fin 5, .fin 2] [3, 1]).K ≤ 2 ∧
    (PopulationCredit.update CreditAssignRaw CreditAccrualLatest false
        (Pop.mk [.fin 5, .fin 2] [3, 1]) [.fin 9, .fin 8] [3, 0]).credit.getD 0 .nan
      = Val.fin 9 ∧
    (PopulationCredit.update CreditAssignRaw CreditAccrualLatest false
        (Pop.mk [.fin 5, .fin 2] [3, 1]) [.fin 9, .fin 8] [3, 0]).citers.getD 0 0 = 3 := by
  refine ⟨by decide, ?_⟩
  have h := update_skips_unstepped_member CreditAssignRaw CreditAccrualLatest false
    (Pop.mk [.fin 5, .fin 2] [3, 1]) [.fin 9, .fin 8] [3, 0]
    (by decide) (by decide) 0 (by decide) (by decide)
  exact ⟨h.1, h.2⟩

/-- C8: the accrual operator is only ever invoked with history length at
least 1 (so the average accrual's division by the history length is never
taken with a zero denominator); a member whose effective history length is
0 (including just after a reset-on-restart) takes the fresh assignment
value directly with no accrual invocation; and the history length is
incremented after each use. -/
theorem update_accrual_guarded_by_history (assign : Pop → List Val)
    (accrual : Val → ℕ → Val → Val) (reset_on_restart : Bool) (pop : Pop)
    (credit : List Val) (citers : List ℕ)
    (hcl : pop.K ≤ credit.length) (hil : pop.K ≤ citers.length) :
    (∀ c ∈ (PopulationCredit.update assign accrual reset_on_restart pop credit citers).calls,
      1 ≤ c.histLen) ∧
    (∀ j, j < pop.K → pop.iters.getD j 0 ≠ citers.getD j 0 →
      (if pop.iters.getD j 0 < citers.getD j 0 ∧ reset_on_restart = true then 0
        else citers.getD j 0) = 0 →
      (PopulationCredit.update assign accrual reset_on_restart pop credit citers).credit.getD
          j .nan = (assign (sanitizedPop pop)).getD j .nan ∧
      (∀ c ∈ (PopulationCredit.update assign accrual reset_on_restart pop
          credit citers).calls, c.idx ≠ j) ∧
      (PopulationCredit.update assign accrual reset_on_restart pop credit citers).citers.getD
          j 0 = 1) ∧
    (∀ j, j < pop.K → pop.iters.getD j 0 ≠ citers.getD j 0 →
      (PopulationCredit.update assign accrual reset_on_restart pop credit citers).citers.getD
          j 0 =
        (if pop.iters.getD j 0 < citers.getD j 0 ∧ reset_on_restart = true then 0
          else citers.getD j 0) + 1) := by
  have hcalls := update_calls_spec assign accrual reset_on_restart pop credit citers hcl hil
  refine ⟨?_, ?_, ?_⟩
  · intro c hc
    rw [hcalls] at hc
    obtain ⟨l, hl, hcl2⟩ := List.mem_flatten.mp hc
    obtain ⟨j, -, hj2⟩ := List.mem_map.mp hl
    subst hj2
    exact (memberUpdateSpec_calls_mem _ _ _ _ _ _ _ c hcl2).2
  · intro j hj hstep hzero
    have h := update_member_spec assign accrual reset_on_restart pop credit citers hcl hil j hj
    rw [memberUpdateSpec_bootstrap _ _ _ _ _ _ _ hstep hzero] at h
    refine ⟨h.1, ?_, h.2⟩
    intro c hc hidx
    rw [hcalls] at hc
    obtain ⟨l, hl, hcl2⟩ := List.mem_flatten.mp hc
    obtain ⟨i, -, hi2⟩ := List.mem_map.mp hl
    subst hi2
    have hcj := (memberUpdateSpec_calls_mem _ _ _ _ _ _ _ c hcl2).1
    rw [hidx] at hcj
    subst hcj
    rw [memberUpdateSpec_bootstrap _ _ _ _ _ _ _ hstep hzero] at hcl2
    simp at hcl2
  · intro j hj hstep
    have h := update_member_spec assign accrual reset_on_restart pop credit citers hcl hil j hj
    rw [h.2, memberUpdateSpec_citers_incremented _ _ _ _ _ _ _ hstep]

/-- Witness for the C8 theorem: a concrete population where member 0 is in
the bootstrap case (history 0) and member 1 accrues with history 2. -/
theorem update_accrual_guarded_by_history_witness :
    (Pop.mk [.fin 1, .fin 2] [1, 3]).K ≤ 2 ∧
    (∀ c ∈ (PopulationCredit.update CreditAssignRaw CreditAccrualLatest true
        (Pop.mk [.fin 1, .fin 2] [1, 3]) [.fin 7, .fin 6] [0, 2]).calls, 1 ≤ c.histLen) := by
  refine ⟨by decide, ?_⟩
  exact (update_accrual_guarded_by_history CreditAssignRaw CreditAccrualLatest true
    (Pop.mk [.fin 1, .fin 2] [1, 3]) [.fin 7, .fin 6] [0, 2] (by decide) (by decide)).1

/-- C10: update mutates the shared population in place: every NaN entry of
the value array is overwritten with the sentinel 10e8 before assignment,
and every other entry is unchanged; the array length is preserved. -/
theorem update_overwrites_nan_values_in_place (assign : Pop → List Val)
    (accrual : Val → ℕ → Val → Val) (reset_on_restart : Bool) (pop : Pop)
    (credit : List Val) (citers : List ℕ) (j : ℕ) (hj : j < pop.values.length) :
    ((PopulationCredit.update assign accrual reset_on_restart pop credit citers).pop.values.getD
        j .nan =
      if (pop.values.getD j .nan).isNan then Val.fin nanSentinel
        else pop.values.getD j .nan) ∧
    (PopulationCredit.update assign accrual reset_on_restart pop
        credit citers).pop.values.length = pop.values.length := by
  have hpop : (PopulationCredit.update assign accrual reset_on_restart pop
      credit citers).pop = sanitizedPop pop := rfl
  have hval : pop.values.getD j .nan = pop.values[j] := by
    rw [List.getD_eq_getElem?_getD, List.getElem?_eq_getElem hj]
    rfl
  constructor
  · rw [hpop, hval]
    unfold sanitizedPop
    rw [List.getD_eq_getElem?_getD, List.getElem?_map, List.getElem?_eq_getElem hj]
    rfl
  · rw [hpop]
    unfold sanitizedPop
    exact List.length_map _ _

/-- Witness for the C10 theorem: a concrete population holding one NaN and
one ordinary value. -/
theorem update_overwrites_nan_values_in_place_witness :
    (0 < (Pop.mk [.nan, .fin 2] [1, 1]).values.length) ∧
    ((PopulationCredit.update CreditAssignRaw CreditAccrualLatest false
        (Pop.mk [.nan, .fin 2] [1, 1]) [.fin 1, .fin 1] [0, 0]).pop.values.getD 0 .nan
      = Val.fin nanSentinel) ∧
    (PopulationCredit.update CreditAssignRaw CreditAccrualLatest false
        (Pop.mk [.nan, .fin 2] [1, 1]) [.fin 1, .fin 1] [0, 0]).pop.values.length = 2 := by
  refine ⟨by decide, ?_, ?_⟩
  · have h := (update_overwrites_nan_values_in_place CreditAssignRaw CreditAccrualLatest false
      (Pop.mk [.nan, .fin 2] [1, 1]) [.fin 1, .fin 1] [0, 0] 0 (by decide)).1
    rw [h]
    rfl
  · exact (update_overwrites_nan_values_in_place CreditAssignRaw CreditAccrualLatest false
      (Pop.mk [.nan, .fin 2] [1, 1]) [.fin 1, .fin 1] [0, 0] 0 (by decide)).2

/-- C5 as stated is false on the code: np.isnan only matches NaN, so an
infinite member value is fed unchanged to the assignment, and with the raw
assignment the infinity lands in the resulting credit vector. -/
theorem update_propagates_infinity_counterexample :
    Val.inf ∈ (PopulationCredit.update CreditAssignRaw CreditAccrualLatest false
        (Pop.mk [.inf, .fin 0] [1, 1]) [.fin 1, .fin 1] [0, 0]).credit ∧
    Val.inf ∈ (PopulationCredit.update CreditAssignRaw CreditAccrualLatest false
        (Pop.mk [.inf, .fin 0] [1, 1]) [.fin 1, .fin 1] [0, 0]).pop.values := by
  decide

/-- C5 (amended): update replaces every NaN member value (and only NaN
values, not infinities) with the large finite sentinel before computing the
credit assignment, so the value array fed to the assignment contains no
NaN. -/
theorem update_feeds_no_nan_to_assignment (assign : Pop → List Val)
    (accrual : Val → ℕ → Val → Val) (reset_on_restart : Bool) (pop : Pop)
    (credit : List Val) (citers : List ℕ) (v : Val)
    (hv : v ∈ (PopulationCredit.update assign accrual reset_on_restart pop
      credit citers).pop.values) :
    v.isNan = false := by
  have hpop : (PopulationCredit.update assign accrual reset_on_restart pop
      credit citers).pop = sanitizedPop pop := rfl
  rw [hpop] at hv
  unfold sanitizedPop at hv
  obtain ⟨w, hw, hmap⟩ := List.mem_map.mp hv
  by_cases h : w.isNan = true
  · rw [← hmap, if_pos h]
    rfl
  · rw [← hmap, if_neg h]
    exact Bool.not_eq_true _ ▸ h

/-- Witness for the amended C5 theorem: the sentinel produced from a NaN
entry is a member of the sanitized value array and is not NaN. -/
theorem update_feeds_no_nan_to_assignment_witness :
    Val.fin nanSentinel ∈ (PopulationCredit.update CreditAssignRaw CreditAccrualLatest false
        (Pop.mk [.nan, .fin 2] [1, 1]) [.fin 1, .fin 1] [0, 0]).pop.values ∧
    (Val.fin nanSentinel).isNan = false := by
  have hlist : (PopulationCredit.update CreditAssignRaw CreditAccrualLatest false
      (Pop.mk [.nan, .fin 2] [1, 1]) [.fin 1, .fin 1] [0, 0]).pop.values
      = [Val.fin nanSentinel, Val.fin 2] := rfl
  have hmem : Val.fin nanSentinel ∈ (PopulationCredit.update CreditAssignRaw
      CreditAccrualLatest false (Pop.mk [.nan, .fin 2] [1, 1])
      [.fin 1, .fin 1] [0, 0]).pop.values := by
    rw [hlist]
    exact List.mem_cons_self _ _
  exact ⟨hmem, update_feeds_no_nan_to_assignment CreditAssignRaw CreditAccrualLatest false
    (Pop.mk [.nan, .fin 2] [1, 1]) [.fin 1, .fin 1] [0, 0] (Val.fin nanSentinel) hmem⟩

/-- C6 is false as stated: with three members whose second stop() raises,
the loop stops members 0 and 1, member 2 is never stopped, and the error
propagates immediately instead of being aggregated. -/
theorem population_stop_aborts_on_first_failure :
    (Population.stop [false, true, false] 0).1 = [0, 1] ∧
    2 ∉ (Population.stop [false, true, false] 0).1 ∧
    (Population.stop [false, true, false] 0).2 = some 1 := by
  decide

/-- C6 (amended): Population.stop invokes the members' stop() strictly in
order up to and including the first one that raises: when none raises,
every member is stopped and no error escapes; when member k is the first
to raise, exactly members 0..k are invoked and the error propagates
immediately, leaving the remaining members unstopped. -/
theorem population_stop_stops_initial_segment (raises : List Bool) (i : ℕ) :
    ((∀ r ∈ raises, r = false) →
      Population.stop raises i = (List.range' i raises.length, none)) ∧
    (∀ k, k < raises.length → raises.getD k true = true →
      (∀ j, j < k → raises.getD j true = false) →
      Population.stop raises i = (List.range' i (k + 1), some (i + k))) := by
  induction raises generalizing i with
  | nil =>
    exact ⟨fun _ => rfl, fun k hk _ _ => absurd hk (Nat.not_lt_zero k)⟩
  | cons r rest ih =>
    constructor
    · intro hall
      have hr : r = false := hall r (List.mem_cons_self r rest)
      unfold Population.stop
      rw [if_neg (by rw [hr]; exact Bool.false_ne_true)]
      have h2 := (ih (i + 1)).1 (fun x hx => hall x (List.mem_cons_of_mem r hx))
      rw [h2]
      rfl
    · intro k hk hkt hjf
      match k with
      | 0 =>
        have hr : r = true := hkt
        unfold Population.stop
        rw [if_pos hr]
        rfl
      | k + 1 =>
        have hr : r = false := hjf 0 (Nat.succ_pos k)
        unfold Population.stop
        rw [if_neg (by rw [hr]; exact Bool.false_ne_true)]
        have h2 := (ih (i + 1)).2 k (by simpa using hk) hkt
          (fun j hj => hjf (j + 1) (by omega))
        rw [h2]
        have : i + 1 + k = i + (k + 1) := by omega
        rw [this]
        rfl

/-- Witness for the amended C6 theorem: a run with no failures stops both
members, and a run whose first member raises stops only that member. -/
theorem population_stop_stops_initial_segment_witness :
    Population.stop [false, false] 5 = ([5, 6], none) ∧
    Population.stop [true, false] 5 = ([5], some 5) := by
  constructor
  · exact (population_stop_stops_initial_segment [false, false] 5).1 (by decide)
  · exact (population_stop_stops_initial_segment [true, false] 5).2 0 (by decide) (by decide)
      (fun j hj => absurd hj (Nat.not_lt_zero j))

theorem replay_step_in_range (a : ℕ × Val) (rest : List (ℕ × Val)) (k : ℕ) (w : Bool)
    (hk : k < (a :: rest).length) :
    RecordedStepping.replay_step ⟨k, a :: rest, w⟩
      = some ((a :: rest).getD k (0, .nan), ⟨k + 1, a :: rest, w⟩, false) := by
  unfold RecordedStepping.replay_step
  dsimp only
  rw [if_neg (by push_cast; omega)]

theorem replay_step_past_end (a : ℕ × Val) (rest : List (ℕ × Val)) (k : ℕ) (w : Bool)
    (hk : (a :: rest).length ≤ k) :
    RecordedStepping.replay_step ⟨k, a :: rest, w⟩
      = some ((a :: rest).getD ((a :: rest).length - 1) (0, .nan),
          ⟨(a :: rest).length, a :: rest, false⟩, w) := by
  unfold RecordedStepping.replay_step
  dsimp only
  rw [if_pos (by push_cast; omega)]
  have h1 : (a :: rest).length - 1 + 1 = (a :: rest).length := by
    simp
  rw [h1]

theorem replayCall_spec (a : ℕ × Val) (rest : List (ℕ × Val)) :
    ∀ (n k : ℕ) (w : Bool), k ≤ (a :: rest).length →
      RecordedStepping.replayCall ⟨k, a :: rest, w⟩ n =
        (if k + n < (a :: rest).length
          then some ((a :: rest).getD (k + n) (0, .nan), ⟨k + n + 1, a :: rest, w⟩, false)
          else some ((a :: rest).getD ((a :: rest).length - 1) (0, .nan),
            ⟨(a :: rest).length, a :: rest, false⟩,
            if k + n = (a :: rest).length then w else false)) := by
  intro n
  induction n with
  | zero =>
    intro k w hk
    by_cases hklt : k < (a :: rest).length
    · show RecordedStepping.replay_step ⟨k, a :: rest, w⟩ = _
      rw [replay_step_in_range a rest k w hklt, if_pos (by omega)]
      have h0 : k + 0 = k := rfl
      rw [h0]
    · have hke : k = (a :: rest).length := by omega
      show RecordedStepping.replay_step ⟨k, a :: rest, w⟩ = _
      rw [replay_step_past_end a rest k w (by omega), if_neg (by omega), if_pos (by omega)]
  | succ n ih =>
    intro k w hk
    show (match RecordedStepping.replay_step ⟨k, a :: rest, w⟩ with
      | none => none
      | some (_, r2, _) => r2.replayCall n) = _
    by_cases hklt : k < (a :: rest).length
    · rw [replay_step_in_range a rest k w hklt]
      show RecordedStepping.replayCall ⟨k + 1, a :: rest, w⟩ n = _
      rw [ih (k + 1) w (by omega)]
      have h1 : k + 1 + n = k + (n + 1) := by omega
      rw [h1]
    · have hke : k = (a :: rest).length := by omega
      rw [replay_step_past_end a rest k w (by omega)]
      show RecordedStepping.replayCall ⟨(a :: rest).length, a :: rest, false⟩ n = _
      rw [ih (a :: rest).length false (le_refl _)]
      rw [if_neg (by omega), ite_self]
      rw [if_neg (show ¬ (k + (n + 1) = (a :: rest).length) by omega)]
      rw [if_neg (show ¬ (k + (n + 1) < (a :: rest).length) by omega)]

/-- C9: for a replay-backed member with a non-empty recorded sequence,
every call past the end of the sequence returns the final recorded pair
again (the call never fails), and the exhaustion warning is emitted exactly
once, on the first call past the end (call number steps.length counting
from 0, i.e. the first call beyond the steps.length in-range calls). -/
theorem replay_clamps_to_last_and_warns_once (steps : List (ℕ × Val))
    (hs : steps ≠ []) (n : ℕ) (hn : steps.length ≤ n) :
    RecordedStepping.replayCall ⟨0, steps, true⟩ n =
      some (steps.getD (steps.length - 1) (0, .nan), ⟨steps.length, steps, false⟩,
        if n = steps.length then true else false) := by
  match steps, hs with
  | a :: rest, _ =>
    rw [replayCall_spec a rest n 0 true (by omega)]
    rw [if_neg (by omega)]
    have h0 : 0 + n = n := by omega
    rw [h0]

/-- Witness for the C9 theorem: a two-step record; the third call (the
first past the end) returns the last pair and warns, the fourth returns
the last pair again without warning. -/
theorem replay_clamps_to_last_and_warns_once_witness :
    RecordedStepping.replayCall ⟨0, [(5, Val.fin 2), (7, Val.fin 3)], true⟩ 2
      = some ((7, Val.fin 3), ⟨2, [(5, Val.fin 2), (7, Val.fin 3)], false⟩, true) ∧
    RecordedStepping.replayCall ⟨0, [(5, Val.fin 2), (7, Val.fin 3)], true⟩ 3
      = some ((7, Val.fin 3), ⟨2, [(5, Val.fin 2), (7, Val.fin 3)], false⟩, false) := by
  constructor
  · exact replay_clamps_to_last_and_warns_once [(5, Val.fin 2), (7, Val.fin 3)]
      (by decide) 2 (by decide)
  · exact replay_clamps_to_last_and_warns_once [(5, Val.fin 2), (7, Val.fin 3)]
      (by decide) 3 (by decide)

theorem listMin_append (l : List ℤ) (y : ℤ) :
    listMin (l ++ [y]) = minAcc (listMin l) y := by
  unfold listMin
  rw [List.foldl_append]
  rfl

theorem listMin_ne_nil (l : List ℤ) (bv : ℤ) (h : listMin l = some bv) : l ≠ [] := by
  intro hl
  subst hl
  exact absurd h (by simp [listMin])

theorem stepOneLoop_spec (env : StepEnv) (base_nfevs : ℕ) :
    ∀ (fuel : ℕ) (s : StepState) (best : Option (ℤ × ℤ)) (trace : List ℤ)
      (s2 : StepState) (bx bv : ℤ) (tr2 : List ℤ),
      stepOneLoop env base_nfevs fuel s best trace = some (s2, bx, bv, tr2) →
      Option.map Prod.snd best = listMin trace →
      base_nfevs + 100 ≤ s2.evaluations ∧
      listMin tr2 = some bv ∧
      s2.member.value = bv ∧
      s.restartIdx ≤ s2.restartIdx ∧
      (s2.restartIdx = s.restartIdx → s2.member.iters = s.member.iters + 1) ∧
      (s.restartIdx < s2.restartIdx → s2.member.iters = 1) := by
  intro fuel
  induction fuel with
  | zero =>
    intro s best trace s2 bx bv tr2 h _
    exact absurd h (by simp [stepOneLoop])
  | succ fuel ih =>
    intro s best trace s2 bx bv tr2 h hinv
    unfold stepOneLoop stepOneBody at h
    by_cases hcond : s.evaluations < base_nfevs + 100
    · rw [if_pos hcond] at h
      rcases hmin : s.member.minimizer with - | ⟨⟨p, d⟩, rest⟩
      · rw [hmin] at h
        dsimp only at h
        have res := ih (restart_one env s) best trace s2 bx bv tr2 h hinv
        have hr1 : (restart_one env s).restartIdx = s.restartIdx + 1 := rfl
        have hr2 : (restart_one env s).member.iters = 0 := rfl
        have h1 := res.2.2.2.1
        rw [hr1] at h1
        refine ⟨res.1, res.2.1, res.2.2.1, by omega, fun heq => absurd heq (by omega), ?_⟩
        intro _
        by_cases he : s2.restartIdx = s.restartIdx + 1
        · have h2 := res.2.2.2.2.1 (by rw [hr1]; exact he)
          rw [h2, hr2]
        · have h3 := res.2.2.2.2.2 (by rw [hr1]; omega)
          exact h3
      · rw [hmin] at h
        dsimp only at h
        have hinv2 : Option.map Prod.snd (some (match best with
            | none => (p, env.f p)
            | some (bx0, bv0) => if bv0 > env.f p then (p, env.f p) else (bx0, bv0)))
            = listMin (trace ++ [env.f p]) := by
          rw [listMin_append, ← hinv]
          cases best with
          | none => rfl
          | some pr =>
            obtain ⟨bx0, bv0⟩ := pr
            dsimp only
            by_cases hby : bv0 > env.f p
            · rw [if_pos hby]
              show some (env.f p) = some (min bv0 (env.f p))
              rw [min_eq_right (by omega)]
            · rw [if_neg hby]
              show some bv0 = some (min bv0 (env.f p))
              rw [min_eq_left (by omega)]
        have res := ih _ _ _ s2 bx bv tr2 h hinv2
        exact ⟨res.1, res.2.1, res.2.2.1, res.2.2.2.1, res.2.2.2.2.1, res.2.2.2.2.2⟩
    · rw [if_neg hcond] at h
      cases best with
      | none =>
        exact absurd h (by simp)
      | some pr =>
        obtain ⟨bx0, bv0⟩ := pr
        dsimp only at h
        rw [Option.some.injEq, Prod.mk.injEq, Prod.mk.injEq, Prod.mk.injEq] at h
        obtain ⟨hs2, hbx, hbv, htr⟩ := h
        subst hbx
        subst hbv
        subst htr
        subst hs2
        refine ⟨?_, by simpa using hinv.symm, rfl, ?_, fun _ => rfl, ?_⟩
        · show base_nfevs + 100 ≤ s.evaluations
          omega
        · show s.restartIdx ≤ s.restartIdx
          exact le_refl _
        · intro hlt
          exact absurd (show s.restartIdx < s.restartIdx from hlt) (lt_irrefl _)

/-- C2: a step_one call on a live member spends at least 100 objective
evaluations beyond the count at entry before returning; the returned value
is the minimum of the values observed at the iteration points produced
during the call (the ghost trace), not merely the last one, and is stored
as the member's value; and when the adapter terminated mid-call the member
was restarted (fresh handle, counter reset: the final local counter is 1,
counting the single increment at the end of the call), while without a
restart the counter advanced by exactly one. -/
theorem step_one_call_spec (env : StepEnv) (fuel : ℕ) (s : StepState)
    (s2 : StepState) (bx bv : ℤ) (tr : List ℤ)
    (h : step_one_call env fuel s = some (s2, bx, bv, tr)) :
    s.evaluations + 100 ≤ s2.evaluations ∧
    tr ≠ [] ∧
    listMin tr = some bv ∧
    s2.member.value = bv ∧
    (s2.restartIdx = s.restartIdx → s2.member.iters = s.member.iters + 1) ∧
    (s.restartIdx < s2.restartIdx → s2.member.iters = 1) := by
  have res := stepOneLoop_spec env s.evaluations fuel s none [] s2 bx bv tr h rfl
  exact ⟨res.1, listMin_ne_nil tr bv res.2.1, res.2.1, res.2.2.1,
    res.2.2.2.2.1, res.2.2.2.2.2⟩

/-- Witness for the C2 theorem: a concrete two-iteration run in which the
second iteration finds the smaller value; the call spends 122 evaluations
(61 per iteration) and returns the best value 1, not the last-seen 9. -/
theorem step_one_call_spec_witness :
    step_one_call ⟨fun p => p * p, fun _ => (0, [])⟩ 5
        ⟨0, 0, ⟨5, 10 ^ 10, 7, [(3, 60), (1, 60)]⟩, 0⟩
      = some (⟨122, 0, ⟨1, 1, 8, []⟩, 1⟩, 1, 1, [9, 1]) ∧
    (0 + 100 ≤ 122 ∧
      ([9, 1] : List ℤ) ≠ [] ∧
      listMin [9, 1] = some 1 ∧
      (1 : ℤ) = 1 ∧
      ((0 : ℕ) = 0 → (8 : ℕ) = 7 + 1) ∧
      ((0 : ℕ) < 0 → (8 : ℕ) = 1)) := by
  constructor
  · rfl
  · exact step_one_call_spec ⟨fun p => p * p, fun _ => (0, [])⟩ 5
      ⟨0, 0, ⟨5, 10 ^ 10, 7, [(3, 60), (1, 60)]⟩, 0⟩
      ⟨122, 0, ⟨1, 1, 8, []⟩, 1⟩ 1 1 [9, 1] (by rfl)

theorem callSeq_eq_getElem? (m : MinimizeStepping) (n : ℕ) :
    m.callSeq n = m.pending[n]? := by
  induction n generalizing m with
  | zero =>
    obtain ⟨pending, alive⟩ := m
    cases pending with
    | nil => rfl
    | cons p rest =>
      show some p = (p :: rest)[0]?
      simp
  | succ n ih =>
    obtain ⟨pending, alive⟩ := m
    cases pending with
    | nil =>
      show MinimizeStepping.callSeq ⟨[], false⟩ n = ([] : List Point)[n + 1]?
      rw [ih]
      simp
    | cons p rest =>
      show MinimizeStepping.callSeq ⟨rest, alive⟩ n = (p :: rest)[n + 1]?
      rw [ih]
      simp

/-- C3 is false as stated: when the wrapped optimizer's final result point
differs from the last callback point, the (N+1)-th next() call returns
that final point instead of signalling termination (here N = 1 with the
callback sequence [[3]] and final result [5]). -/
theorem adapter_extra_final_step_counterexample :
    (MinimizeStepping.make ⟨[0], [[3]], some [5]⟩).callSeq 0 = some [3] ∧
    (MinimizeStepping.make ⟨[0], [[3]], some [5]⟩).callSeq 1 = some [5] ∧
    ¬ (MinimizeStepping.make ⟨[0], [[3]], some [5]⟩).callSeq 1 = none ∧
    (MinimizeStepping.make ⟨[0], [[3]], some [5]⟩).callSeq 2 = none := by
  decide

/-- C3 (amended): for a wrapped optimizer that invokes its per-iteration
callback on a deterministic sequence of N points and then returns with a
final result point equal to the last reported point (x0 when there was no
callback), next() called N times returns exactly those N points in order
and the (N+1)-th call signals termination. -/
theorem adapter_yields_callbacks_then_terminates (o : ScriptedOpt)
    (hfin : o.resultx.getD o.x0 = lastReported o) :
    (∀ n, n < o.callbacks.length →
      (MinimizeStepping.make o).callSeq n = o.callbacks[n]?) ∧
    (MinimizeStepping.make o).callSeq o.callbacks.length = none := by
  have hrep : MinimizeThread.reportedPoints o = o.callbacks := by
    unfold MinimizeThread.reportedPoints
    rw [if_neg (not_not_intro hfin)]
    exact List.append_nil _
  constructor
  · intro n hn
    rw [callSeq_eq_getElem?]
    show (MinimizeThread.reportedPoints o)[n]? = _
    rw [hrep]
  · rw [callSeq_eq_getElem?]
    show (MinimizeThread.reportedPoints o)[o.callbacks.length]? = none
    rw [hrep]
    exact List.getElem?_eq_none (le_refl _)

/-- Witness for the amended C3 theorem: two scripted callbacks whose final
result repeats the last reported point. -/
theorem adapter_yields_callbacks_then_terminates_witness :
    (⟨[0], [[3], [4]], some [4]⟩ : ScriptedOpt).resultx.getD [0]
        = lastReported ⟨[0], [[3], [4]], some [4]⟩ ∧
    ((∀ n, n < 2 →
      (MinimizeStepping.make ⟨[0], [[3], [4]], some [4]⟩).callSeq n
        = [[3], [4]][n]?) ∧
    (MinimizeStepping.make ⟨[0], [[3], [4]], some [4]⟩).callSeq 2 = none) :=
  ⟨by decide, adapter_yields_callbacks_then_terminates ⟨[0], [[3], [4]], some [4]⟩ (by decide)⟩

/-- C4: the adapter surfaces the optimizer's final result point as exactly
one additional step before signalling termination when that point differs
(in any coordinate) from the last point reported through the callback; when
it equals the last reported point no extra step is produced. -/
theorem adapter_surfaces_final_point (o : ScriptedOpt) :
    ((o.resultx.getD o.x0 ≠ lastReported o) →
      (∀ n, n < o.callbacks.length →
        (MinimizeStepping.make o).callSeq n = o.callbacks[n]?) ∧
      (MinimizeStepping.make o).callSeq o.callbacks.length
        = some (o.resultx.getD o.x0) ∧
      (MinimizeStepping.make o).callSeq (o.callbacks.length + 1) = none) ∧
    ((o.resultx.getD o.x0 = lastReported o) →
      (MinimizeStepping.make o).callSeq o.callbacks.length = none) := by
  constructor
  · intro hne
    have hrep : MinimizeThread.reportedPoints o
        = o.callbacks ++ [o.resultx.getD o.x0] := by
      unfold MinimizeThread.reportedPoints
      rw [if_pos hne]
    refine ⟨?_, ?_, ?_⟩
    · intro n hn
      rw [callSeq_eq_getElem?]
      show (MinimizeThread.reportedPoints o)[n]? = _
      rw [hrep, List.getElem?_append, if_pos hn]
    · rw [callSeq_eq_getElem?]
      show (MinimizeThread.reportedPoints o)[o.callbacks.length]? = _
      rw [hrep, List.getElem?_append_right (le_refl _)]
      simp
    · rw [callSeq_eq_getElem?]
      show (MinimizeThread.reportedPoints o)[o.callbacks.length + 1]? = none
      rw [hrep]
      apply List.getElem?_eq_none
      simp
  · intro hfin
    exact (adapter_yields_callbacks_then_terminates o hfin).2

/-- Witness for the C4 theorem: two scripted callbacks and a differing
final result point, surfaced as a third step before termination. -/
theorem adapter_surfaces_final_point_witness :
    (⟨[0], [[2], [3]], some [7]⟩ : ScriptedOpt).resultx.getD [0]
        ≠ lastReported ⟨[0], [[2], [3]], some [7]⟩ ∧
    ((∀ n, n < 2 →
      (MinimizeStepping.make ⟨[0], [[2], [3]], some [7]⟩).callSeq n
        = [[2], [3]][n]?) ∧
    (MinimizeStepping.make ⟨[0], [[2], [3]], some [7]⟩).callSeq 2 = some [7] ∧
    (MinimizeStepping.make ⟨[0], [[2], [3]], some [7]⟩).callSeq 3 = none) :=
  ⟨by decide, (adapter_surfaces_final_point ⟨[0], [[2], [3]], some [7]⟩).1 (by decide)⟩
